import Mathlib

/-!
Shallow embedding of the climb-generator core (`src/markov_chain.py`,
class `ClimbGenerator`) of the tension-climb-generator repository,
together with theorems settling the specification claims.

Modelling conventions:
* A Python hold dict `{"x": _, "y": _, "role": _}` (and equally the tuple
  `(x, y, role)` used as a distribution state) is the structure `Hold`.
* Python floats are modelled by exact rationals `ℚ`.  All float
  comparisons performed by the code compare sums/products/quotients of
  small integers, and the distance thresholds `8`, `50` are compared to a
  float square root of an integer; these are modelled exactly by squared
  comparisons (`64`, `2500`), which agree with the correctly rounded
  `float` computation on integer coordinates.
* `defaultdict` tables are association lists (`List (key × value)`);
  `__getitem__` on a missing key inserts the default at the end, exactly
  as a Python `defaultdict` materialises the key, so the mutation that
  lookups perform is visible in the returned table.
* `np.random.random()` draws are read from an explicit tape of rationals
  (`Tape`); an exhausted tape yields `0`.  The code consumes one draw per
  successful sampling call and one for the two-start-holds coin flip, in
  source order.
* Python exceptions (the `ValueError` of `generate_climb`, the
  `IndexError` of `moves[0]` on an empty list, the `KeyError` of a
  missing record field) are modelled with `Except String`.
-/

/-- A hold: board coordinates and functional role
(`START = 5`, `INTERMEDIATE = 6`, `FINISH = 7`, `FOOTHOLD = 8`). -/
structure Hold where
  x : Int
  y : Int
  role : Int
deriving DecidableEq, Repr

/-- A weighted distribution: a list of `(state, probability)` entries,
the Python `List[Tuple[int, int, int, float]]`. -/
abbrev WDist := List (Hold × ℚ)

/-- Inner transition table of one difficulty: hold ↦ distribution. -/
abbrev TransInner := List (Hold × WDist)

/-- Full transition table: difficulty ↦ inner table. -/
abbrev TransTable := List (String × TransInner)

/-- Constants from `ClimbGenerator.__init__`. -/
def FOOTHOLD_ROLE : Int := 8

/-- Constant `self.FOOTHOLD_MAX_Y = 32`. -/
def FOOTHOLD_MAX_Y : Int := 32

/-- Constant `self.START_ROLE = 5`. -/
def START_ROLE : Int := 5

/-- Constant `self.FINISH_ROLE = 7`. -/
def FINISH_ROLE : Int := 7

/-- The mutable state of a `ClimbGenerator` object. -/
structure GenState where
  transitions : TransTable
  start_positions : List (String × WDist)
  difficulties : List String
deriving DecidableEq, Repr

/-- A fresh `ClimbGenerator()`. -/
def initState : GenState := ⟨[], [], []⟩

/-- Association-list lookup (Python `k in m` / `m[k]` when present). -/
def alGet {K V : Type} [DecidableEq K] (m : List (K × V)) (k : K) : Option V :=
  match m with
  | [] => none
  | (k', v) :: rest => if k' = k then some v else alGet rest k

/-- Association-list update: replace in place, else append
(Python dict assignment, which preserves insertion order). -/
def alSet {K V : Type} [DecidableEq K] (m : List (K × V)) (k : K) (v : V) :
    List (K × V) :=
  match m with
  | [] => [(k, v)]
  | (k', v') :: rest => if k' = k then (k, v) :: rest else (k', v') :: alSet rest k v

/-- Lookup `defaultdict.__getitem__`: return the stored value, or materialise the
default at the end of the table and return it. -/
def ddGet {K V : Type} [DecidableEq K] (m : List (K × V)) (k : K) (dflt : V) :
    V × List (K × V) :=
  match alGet m k with
  | some v => (v, m)
  | none => (dflt, m ++ [(k, dflt)])

/-- First matching entry of the distribution gets its weight increased by 1
(the `for ... else` loop of `_add_to_distribution`); `none` when no entry
matches the state. -/
def incFirst : WDist → Hold → Option WDist
  | [], _ => none
  | (h, p) :: rest, s =>
    if h = s then some ((h, p + 1) :: rest)
    else (incFirst rest s).map (fun r => (h, p) :: r)

/-- Total `sum(prob for _, _, _, prob in distribution)`. -/
def distTotal (d : WDist) : ℚ := (d.map (fun e => e.2)).sum

/-- Method `ClimbGenerator._add_to_distribution`: bump the matching entry's weight
by 1 (or append the state with weight 1), then divide every weight by the
new total. -/
def add_to_distribution (dist : WDist) (s : Hold) : WDist :=
  let bumped :=
    match incFirst dist s with
    | some d => d
    | none => dist ++ [(s, 1)]
  let total := distTotal bumped
  bumped.map (fun e => (e.1, e.2 / total))

/-- Repeated insertion into an initially empty `WeightedDistribution`. -/
def insertAll (ss : List Hold) : WDist := ss.foldl add_to_distribution []

/-- Squared Euclidean distance between two holds; the code compares the
float `((x1-x2)**2 + (y1-y2)**2) ** 0.5` against integer thresholds, which
is modelled exactly by comparing this square against the squared threshold. -/
def distSq (a b : Hold) : Int := (a.x - b.x) * (a.x - b.x) + (a.y - b.y) * (a.y - b.y)

/-- Method `ClimbGenerator._find_paired_hold_distance` (squared): the squared
distance between the two holds of the given role, when there are exactly
two of them. -/
def find_paired_hold_distSq (climb : List Hold) (role : Int) : Option Int :=
  match climb.filter (fun h => h.role == role) with
  | [a, b] => some (distSq a b)
  | _ => none

/-- Method `ClimbGenerator._is_valid_paired_holds`: appending `newHold` must not
create a same-role `START`/`FINISH` pair further apart than
`MAX_WINGSPAN = 50` (squared: 2500).  The Python guard
`if distance and distance > 50` treats a zero distance as falsy, which
coincides with `¬ (dsq > 2500)` there. -/
def is_valid_paired_holds (climb : List Hold) (newHold : Hold) : Bool :=
  let temp := climb ++ [newHold]
  let startOk : Bool :=
    if newHold.role = START_ROLE then
      match find_paired_hold_distSq temp START_ROLE with
      | some dsq => if dsq > 2500 then false else true
      | none => true
    else true
  let finishOk : Bool :=
    if newHold.role = FINISH_ROLE then
      match find_paired_hold_distSq temp FINISH_ROLE with
      | some dsq => if dsq > 2500 then false else true
      | none => true
    else true
  startOk && finishOk

/-- Role-count tally (`role_counts = defaultdict(int)`): total function,
missing roles count 0. -/
abbrev RoleCounts := Int → Nat

/-- The empty tally. -/
def rcEmpty : RoleCounts := fun _ => 0

/-- Update `role_counts[role] += 1`. -/
def rcBump (rc : RoleCounts) (role : Int) : RoleCounts :=
  fun r => if r = role then rc r + 1 else rc r

/-- The filter body of `_select_from_distribution` (the four `continue`
guards plus the paired-holds check), for a candidate hold `h`. -/
def holdAllowed (current_climb : List Hold) (role_counts : RoleCounts)
    (current_y : Int) (h : Hold) : Bool :=
  if h.y < current_y - 8 then false
  else if h.role = FOOTHOLD_ROLE ∧ h.y > FOOTHOLD_MAX_Y then false
  else if h.role = START_ROLE ∧ role_counts START_ROLE ≥ 2 then false
  else if h.role = FINISH_ROLE ∧ role_counts FINISH_ROLE ≥ 2 then false
  else is_valid_paired_holds current_climb h

/-- The stream of `np.random.random()` results. -/
abbrev Tape := List ℚ

/-- Draw the next random value (an exhausted tape yields `0`). -/
def tapeNext : Tape → ℚ × Tape
  | [] => (0, [])
  | r :: rest => (r, rest)

/-- The roulette-wheel walk of `_select_from_distribution`: return the
first entry whose cumulative weight reaches `r`, else the last entry
(`valid_holds[-1]`). -/
def pickFrom (r : ℚ) (cumsum : ℚ) (e : Hold × ℚ) : List (Hold × ℚ) → Hold
  | [] => e.1
  | e2 :: rest => if r ≤ cumsum + e.2 then e.1 else pickFrom r (cumsum + e.2) e2 rest

/-- Method `ClimbGenerator._select_from_distribution`.  Returns `none` on an empty
distribution, an empty filtered set, or zero residual mass; otherwise
consumes one random draw and roulette-samples the filtered entries. -/
def select_from_distribution (dist : WDist) (current_climb : List Hold)
    (role_counts : RoleCounts) (tape : Tape) : Option Hold × Tape :=
  if dist.isEmpty then (none, tape)
  else
    let current_y : Int :=
      match current_climb.getLast? with
      | some h => h.y
      | none => 0
    let valid_holds := dist.filter (fun e => holdAllowed current_climb role_counts current_y e.1)
    match valid_holds with
    | [] => (none, tape)
    | v :: vs =>
      let total_prob := distTotal (v :: vs)
      if total_prob = 0 then (none, tape)
      else
        let (rv, tape') := tapeNext tape
        (some (pickFrom (rv * total_prob) 0 v vs), tape')

/-- Method `ClimbGenerator._is_valid_transition`: Euclidean distance in `[8, 50]`
(squared: `[64, 2500]`) and `|Δy| ≤ 40`. -/
def is_valid_transition (current next_hold : Hold) : Bool :=
  let dsq := (next_hold.x - current.x) * (next_hold.x - current.x) +
             (next_hold.y - current.y) * (next_hold.y - current.y)
  if ¬ (64 ≤ dsq ∧ dsq ≤ 2500) then false
  else if (next_hold.y - current.y).natAbs > 40 then false
  else true

/-- Lookup `self.transitions[difficulty][current]`: two nested `defaultdict`
lookups; both may materialise empty entries, and the (possibly updated)
inner table is written back under the difficulty key. -/
def ddLookup2 (tr : TransTable) (d : String) (h : Hold) : WDist × TransTable :=
  let p1 := ddGet tr d []
  let p2 := ddGet p1.1 h []
  (p2.1, alSet p1.2 d p2.2)

/-- Method `ClimbGenerator.add_climb`: record the difficulty, the first hold as a
start observation, and each consecutive pair as a transition observation.
`moves[0]` on an empty list raises `IndexError` (after the difficulty has
already been appended). -/
def add_climb (st : GenState) (difficulty : String) (moves : List Hold) :
    Except String GenState :=
  let difficulties :=
    if difficulty ∈ st.difficulties then st.difficulties
    else st.difficulties ++ [difficulty]
  match moves with
  | [] => Except.error "IndexError: list index out of range"
  | m0 :: _ =>
    let p := ddGet st.start_positions difficulty []
    let sp := alSet p.2 difficulty (add_to_distribution p.1 m0)
    let tr := (moves.zip moves.tail).foldl
      (fun t pr =>
        let q := ddLookup2 t difficulty pr.1
        let q1 := ddGet q.2 difficulty []
        alSet q.2 difficulty (alSet q1.1 pr.1 (add_to_distribution q.1 pr.2)))
      st.transitions
    Except.ok { transitions := tr, start_positions := sp, difficulties := difficulties }

/-- One record of the training corpus; a missing field models a dict
without that key (`climb_data["difficulty"]` / `["climb"]` raise
`KeyError`). -/
structure ClimbRecord where
  difficulty : Option String
  climb : Option (List Hold)

/-- Method `ClimbGenerator.train_on_data`: a plain loop over the records with no
exception handling — the first raising record aborts the pass. -/
def train_on_data (st : GenState) : List ClimbRecord → Except String GenState
  | [] => Except.ok st
  | r :: rs =>
    match r.difficulty, r.climb with
    | some d, some c =>
      match add_climb st d c with
      | Except.ok st' => train_on_data st' rs
      | Except.error e => Except.error e
    | _, _ => Except.error "KeyError"

/-- The inner move loop of `generate_climb` (`for _ in range(max_moves - 1)`),
with the transition table threaded through because each iteration's
`self.transitions[difficulty][current]` lookup may materialise entries. -/
def moveLoop (difficulty : String) (min_moves : Int) :
    Nat → TransTable → Hold → List Hold → RoleCounts → Tape →
    List Hold × RoleCounts × TransTable × Tape
  | 0, tr, _, climb, rc, tape => (climb, rc, tr, tape)
  | fuel + 1, tr, current, climb, rc, tape =>
    let q := ddLookup2 tr difficulty current
    match select_from_distribution q.1 climb rc tape with
    | (none, tape') => (climb, rc, q.2, tape')
    | (some nh, tape') =>
      if is_valid_transition current nh = false then (climb, rc, q.2, tape')
      else
        let climb' := climb ++ [nh]
        let rc' := rcBump rc nh.role
        if min_moves ≤ (climb'.length : Int) ∧ 1 ≤ rc' START_ROLE ∧
            rc' START_ROLE ≤ 2 ∧ 1 ≤ rc' FINISH_ROLE then
          (climb', rc', q.2, tape')
        else
          moveLoop difficulty min_moves fuel q.2 nh climb' rc' tape'

/-- The start phase of one attempt of `generate_climb`: sample the start
hold against the empty route, then with probability `0.3` try one extra
start hold from `self.transitions[difficulty][start]`, keeping it only if
its role is `START`.  Returns `(current, climb, role_counts)`; note that
`current` is set to the *first* start hold after this phase. -/
def startPhase (st : GenState) (difficulty : String) (tape : Tape) :
    Option (Hold × List Hold × RoleCounts) × GenState × Tape :=
  let p := ddGet st.start_positions difficulty []
  let st1 : GenState := { st with start_positions := p.2 }
  match select_from_distribution p.1 [] rcEmpty tape with
  | (none, tape1) => (none, st1, tape1)
  | (some start, tape1) =>
    let climb := [start]
    let rc := rcBump rcEmpty start.role
    let d1 := tapeNext tape1
    if d1.1 < 3/10 then
      let q := ddLookup2 st1.transitions difficulty start
      let st2 : GenState := { st1 with transitions := q.2 }
      match select_from_distribution q.1 climb rc d1.2 with
      | (some s2, tape3) =>
        if s2.role = START_ROLE then
          (some (start, climb ++ [s2], rcBump rc s2.role), st2, tape3)
        else (some (start, climb, rc), st2, tape3)
      | (none, tape3) => (some (start, climb, rc), st2, tape3)
    else (some (start, climb, rc), st1, d1.2)

/-- The final route validation of `generate_climb`. -/
def countOk (rc : RoleCounts) (climb : List Hold) (min_moves max_moves : Int) : Bool :=
  if min_moves ≤ (climb.length : Int) ∧ (climb.length : Int) ≤ max_moves ∧
      1 ≤ rc START_ROLE ∧ rc START_ROLE ≤ 2 ∧
      1 ≤ rc FINISH_ROLE ∧ rc FINISH_ROLE ≤ 2 then true
  else false

/-- One attempt of `generate_climb`: start phase, move loop, final
validation.  The attempt returns `none` (and the loop continues) when the
start sampling or the final validation fails. -/
def attempt (st : GenState) (difficulty : String) (min_moves max_moves : Int)
    (tape : Tape) : Option (List Hold) × GenState × Tape :=
  match startPhase st difficulty tape with
  | (none, st1, tape1) => (none, st1, tape1)
  | (some (current, climb, rc), st1, tape1) =>
    let r := moveLoop difficulty min_moves (max_moves - 1).toNat
      st1.transitions current climb rc tape1
    let st2 : GenState := { st1 with transitions := r.2.2.1 }
    if countOk r.2.1 r.1 min_moves max_moves then (some r.1, st2, r.2.2.2)
    else (none, st2, r.2.2.2)

/-- Loop `for _ in range(max_attempts)`: the first attempt that survives the
final validation wins; exhaustion returns `none`. -/
def attemptsLoop (difficulty : String) (min_moves max_moves : Int) :
    Nat → GenState → Tape → Option (List Hold) × GenState × Tape
  | 0, st, tape => (none, st, tape)
  | n + 1, st, tape =>
    match attempt st difficulty min_moves max_moves tape with
    | (some climb, st1, tape1) => (some climb, st1, tape1)
    | (none, st1, tape1) => attemptsLoop difficulty min_moves max_moves n st1 tape1

/-- Method `ClimbGenerator.generate_climb`: raises `ValueError` for an untrained
difficulty, otherwise runs up to `max_attempts` attempts and returns the
first validated route, or `none`. -/
def generate_climb (st : GenState) (difficulty : String)
    (min_moves max_moves max_attempts : Int) (tape : Tape) :
    Except String (Option (List Hold) × GenState × Tape) :=
  if difficulty ∈ st.difficulties then
    Except.ok (attemptsLoop difficulty min_moves max_moves max_attempts.toNat st tape)
  else
    Except.error ("ValueError: No training data for difficulty " ++ difficulty)

/-! ### Test fixtures: concretely trained generators -/

/-- Build a generator by `train_on_data` from a fresh `ClimbGenerator()`
(partial training is discarded if a record raises). -/
def trainedOn (rs : List ClimbRecord) : GenState :=
  (train_on_data initState rs).toOption.getD initState

/-- Start hold of the spec's single-route scenario. -/
def hA : Hold := ⟨0, 0, 5⟩

/-- Intermediate hold of the spec's single-route scenario. -/
def hB : Hold := ⟨8, 10, 6⟩

/-- Finish hold of the spec's single-route scenario. -/
def hF : Hold := ⟨0, 40, 7⟩

/-- A second start hold 4 units from `hA` (closer than `MIN_REACH = 8`). -/
def hA2 : Hold := ⟨4, 0, 5⟩

/-- Generator trained on the single scenario route `[hA, hB, hF]`. -/
def stScenario : GenState := trainedOn [⟨some "V0", some [hA, hB, hF]⟩]

/-- Generator trained on one single-hold route (so `hA` is terminal and
the transition table has no entry at all). -/
def stLen1 : GenState := trainedOn [⟨some "V0", some [hA]⟩]

/-- Generator trained on the two routes `[hA, hA2]` and `[hA, hF]`. -/
def stTwo : GenState :=
  trainedOn [⟨some "V0", some [hA, hA2]⟩, ⟨some "V0", some [hA, hF]⟩]

/-! ### Distribution-level lemmas -/

/-- The hold states stored in a distribution. -/
def holdsOf (d : WDist) : List Hold := d.map (fun e => e.1)

theorem sum_pos_of_mem_pos (l : List ℚ) (hne : l ≠ []) (hp : ∀ x ∈ l, 0 < x) :
    0 < l.sum := by
  cases l with
  | nil => exact absurd rfl hne
  | cons x xs =>
    have hx : 0 < x := hp x (List.mem_cons_self x xs)
    have hxs : 0 ≤ xs.sum :=
      List.sum_nonneg (fun y hy => le_of_lt (hp y (List.mem_cons_of_mem x hy)))
    rw [List.sum_cons]
    exact add_pos_of_pos_of_nonneg hx hxs

theorem incFirst_eq_none (d : WDist) (s : Hold) :
    incFirst d s = none ↔ s ∉ holdsOf d := by
  induction d with
  | nil => simp [incFirst, holdsOf]
  | cons e rest ih =>
    obtain ⟨h, p⟩ := e
    simp only [incFirst, holdsOf, List.map_cons, List.mem_cons]
    by_cases hh : h = s
    · simp [hh]
    · simp [hh, Option.map_eq_none', ih, holdsOf, Ne.symm hh]

theorem incFirst_some (d : WDist) (s : Hold) (d' : WDist)
    (h : incFirst d s = some d') :
    holdsOf d' = holdsOf d ∧ ((∀ e ∈ d, 0 < e.2) → ∀ e ∈ d', 0 < e.2) := by
  induction d generalizing d' with
  | nil => simp [incFirst] at h
  | cons e rest ih =>
    obtain ⟨a, p⟩ := e
    simp only [incFirst] at h
    by_cases hh : a = s
    · rw [if_pos hh] at h
      injection h with h
      subst h
      refine ⟨by simp [holdsOf], fun hp e he => ?_⟩
      rcases List.mem_cons.mp he with h1 | h1
      · have hpp := hp (a, p) (List.mem_cons_self _ _)
        subst h1
        have : (0 : ℚ) < p + 1 := by
          have : (0 : ℚ) < p := hpp
          linarith
        exact this
      · exact hp e (List.mem_cons_of_mem _ h1)
    · rw [if_neg hh, Option.map_eq_some'] at h
      obtain ⟨d'', hd'', hmap⟩ := h
      obtain ⟨hh1, hh2⟩ := ih d'' hd''
      subst hmap
      constructor
      · simp only [holdsOf, List.map_cons]
        simp only [holdsOf] at hh1
        rw [hh1]
      · intro hp e he
        rcases List.mem_cons.mp he with h1 | h1
        · exact h1 ▸ hp (a, p) (List.mem_cons_self _ _)
        · exact hh2 (fun e' he' => hp e' (List.mem_cons_of_mem _ he')) e h1

theorem holdsOf_map_div (d : WDist) (t : ℚ) :
    holdsOf (d.map fun e => (e.1, e.2 / t)) = holdsOf d := by
  simp [holdsOf, List.map_map, Function.comp]

theorem distTotal_nil : distTotal [] = 0 := rfl

theorem distTotal_cons (e : Hold × ℚ) (d : WDist) :
    distTotal (e :: d) = e.2 + distTotal d := by
  simp [distTotal]

theorem distTotal_map_div (d : WDist) (t : ℚ) :
    distTotal (d.map fun e => (e.1, e.2 / t)) = distTotal d / t := by
  induction d with
  | nil => simp [distTotal]
  | cons e rest ih =>
    simp only [List.map_cons, distTotal_cons]
    rw [ih, add_div]

theorem mem_holdsOf_add (d : WDist) (s h : Hold) :
    h ∈ holdsOf (add_to_distribution d s) ↔ h ∈ holdsOf d ∨ h = s := by
  unfold add_to_distribution
  cases hi : incFirst d s with
  | some d' =>
    obtain ⟨hh, -⟩ := incFirst_some d s d' hi
    have hs : s ∈ holdsOf d := by
      by_contra hc
      rw [← incFirst_eq_none d s] at hc
      simp [hc] at hi
    simp only [holdsOf_map_div, hh]
    constructor
    · exact fun hx => Or.inl hx
    · rintro (hx | rfl)
      · exact hx
      · exact hs
  | none =>
    rw [holdsOf_map_div]
    simp [holdsOf]

theorem add_to_distribution_spec (d : WDist) (s : Hold)
    (hpos : ∀ e ∈ d, 0 < e.2) :
    (∀ e ∈ add_to_distribution d s, 0 < e.2) ∧
    distTotal (add_to_distribution d s) = 1 ∧
    ((holdsOf d).Nodup → (holdsOf (add_to_distribution d s)).Nodup) := by
  unfold add_to_distribution
  cases hi : incFirst d s with
  | some d' =>
    obtain ⟨hh, hp⟩ := incFirst_some d s d' hi
    have hd'pos := hp hpos
    have hne : d' ≠ [] := by
      intro hc
      subst hc
      have : holdsOf d = [] := hh.symm
      have hs : s ∉ holdsOf d := by simp [this]
      rw [← incFirst_eq_none d s] at hs
      simp [hs] at hi
    have htot : 0 < distTotal d' := by
      apply sum_pos_of_mem_pos
      · simp only [ne_eq, List.map_eq_nil_iff]
        exact hne
      · intro x hx
        obtain ⟨e, he, hex⟩ := List.mem_map.mp hx
        exact hex ▸ hd'pos e he
    refine ⟨fun e he => ?_, ?_, fun hnd => ?_⟩
    · obtain ⟨a, ha, hae⟩ := List.mem_map.mp he
      subst hae
      exact div_pos (hd'pos a ha) htot
    · rw [distTotal_map_div, div_self (ne_of_gt htot)]
    · simpa [holdsOf_map_div, hh] using hnd
  | none =>
    have hs : s ∉ holdsOf d := (incFirst_eq_none d s).mp hi
    have hallpos : ∀ e ∈ d ++ [(s, (1 : ℚ))], 0 < e.2 := by
      intro e he
      rcases List.mem_append.mp he with h1 | h1
      · exact hpos e h1
      · simp at h1
        simp [h1]
    have hne : d ++ [(s, (1 : ℚ))] ≠ [] := by simp
    have htot : 0 < distTotal (d ++ [(s, (1 : ℚ))]) := by
      apply sum_pos_of_mem_pos
      · simp only [ne_eq, List.map_eq_nil_iff]
        exact hne
      · intro x hx
        obtain ⟨e, he, hex⟩ := List.mem_map.mp hx
        exact hex ▸ hallpos e he
    refine ⟨fun e he => ?_, ?_, fun hnd => ?_⟩
    · obtain ⟨a, ha, hae⟩ := List.mem_map.mp he
      subst hae
      exact div_pos (hallpos a ha) htot
    · rw [distTotal_map_div, div_self (ne_of_gt htot)]
    · rw [holdsOf_map_div]
      have : holdsOf (d ++ [(s, (1 : ℚ))]) = holdsOf d ++ [s] := by
        simp [holdsOf]
      rw [this]
      simp [List.nodup_append, hnd, hs]

/-- Any distribution built by repeated insertion is nonempty as soon as one
state has been inserted, keeps positive weights, no duplicate states, and a
total probability of exactly 1. -/
theorem foldl_add_spec (ss : List Hold) (d : WDist)
    (hpos : ∀ e ∈ d, 0 < e.2) (hnd : (holdsOf d).Nodup)
    (htot : d = [] ∨ distTotal d = 1) :
    (∀ e ∈ ss.foldl add_to_distribution d, 0 < e.2) ∧
    (holdsOf (ss.foldl add_to_distribution d)).Nodup ∧
    (ss.foldl add_to_distribution d = [] ∨
      distTotal (ss.foldl add_to_distribution d) = 1) := by
  induction ss generalizing d with
  | nil => exact ⟨hpos, hnd, htot⟩
  | cons s rest ih =>
    obtain ⟨h1, h2, h3⟩ := add_to_distribution_spec d s hpos
    exact ih (add_to_distribution d s) h1 (h3 hnd) (Or.inr h2)

theorem mem_foldl_add (ss : List Hold) (d : WDist) (h : Hold) :
    h ∈ holdsOf (ss.foldl add_to_distribution d) ↔ h ∈ holdsOf d ∨ h ∈ ss := by
  induction ss generalizing d with
  | nil => simp
  | cons s rest ih =>
    simp only [List.foldl_cons, ih, mem_holdsOf_add, List.mem_cons]
    tauto

theorem mem_insertAll (ss : List Hold) (h : Hold) :
    h ∈ holdsOf (insertAll ss) ↔ h ∈ ss := by
  rw [insertAll, mem_foldl_add]
  simp [holdsOf]

/-- C4: after any sequence of weighted inserts the distribution is either
empty (no insertion happened) or its stored probabilities sum to exactly 1
(the float computation is within tolerance of this exact value), and it
never stores two entries for the same hold state. -/
theorem claim_C4 (ss : List Hold) :
    insertAll ss = [] ∨
      (distTotal (insertAll ss) = 1 ∧ (holdsOf (insertAll ss)).Nodup) := by
  obtain ⟨-, hnd, htot⟩ :=
    foldl_add_spec ss [] (by simp) (by simp [holdsOf]) (Or.inl rfl)
  rcases htot with h | h
  · exact Or.inl h
  · exact Or.inr ⟨h, hnd⟩

/-- Counterexample to C3: the multiset `{hA, hA, hB}` inserted in the two
orders `[hA, hA, hB]` and `[hA, hB, hA]` gives `hA` the final probability
`1/2` in the first order but `3/4` in the second — far outside floating
tolerance, so training is *not* order-insensitive. -/
theorem claim_C3_counterexample :
    ([hA, hA, hB] : List Hold).Perm [hA, hB, hA] ∧
    alGet (insertAll [hA, hA, hB]) hA = some (1/2) ∧
    alGet (insertAll [hA, hB, hA]) hA = some (3/4) := by
  refine ⟨List.Perm.cons hA (List.Perm.swap hB hA []), ?_, ?_⟩ <;>
    norm_num [insertAll, add_to_distribution, incFirst, distTotal, alGet, hA, hB]

/-- C3 amended: permuting the insertions preserves which hold states the
distribution contains (the support), but not their probabilities (see the
counterexample); the code increments an already renormalized probability
by 1, so the final probabilities depend on insertion order. -/
theorem claim_C3_amended (ss ss' : List Hold) (hp : ss.Perm ss') (h : Hold) :
    h ∈ holdsOf (insertAll ss) ↔ h ∈ holdsOf (insertAll ss') := by
  rw [mem_insertAll, mem_insertAll]
  exact hp.mem_iff

/-- Witness for the amended C3 at a concrete permutation. -/
theorem claim_C3_amended_witness :
    ([hA, hA, hB] : List Hold).Perm [hA, hB, hA] ∧
    (hA ∈ holdsOf (insertAll [hA, hA, hB]) ↔
      hA ∈ holdsOf (insertAll [hA, hB, hA])) :=
  ⟨List.Perm.cons hA (List.Perm.swap hB hA []),
    claim_C3_amended [hA, hA, hB] [hA, hB, hA]
      (List.Perm.cons hA (List.Perm.swap hB hA [])) hA⟩

/-- Witness for C4 at a concrete insertion sequence. -/
theorem claim_C4_witness :
    insertAll [hA, hB] = [] ∨
      (distTotal (insertAll [hA, hB]) = 1 ∧ (holdsOf (insertAll [hA, hB])).Nodup) :=
  claim_C4 [hA, hB]

/-! ### Association-list and defaultdict lemmas -/

theorem alGet_alSet {K V : Type} [DecidableEq K] (m : List (K × V)) (k k' : K)
    (v : V) :
    alGet (alSet m k v) k' = if k = k' then some v else alGet m k' := by
  induction m with
  | nil => rfl
  | cons e rest ih =>
    obtain ⟨a, b⟩ := e
    by_cases hak : a = k
    · by_cases hkk' : k = k'
      · simp [alSet, alGet, hak, hkk']
      · have hak' : ¬ a = k' := fun hc => hkk' (hak.symm.trans hc)
        simp [alSet, alGet, hak, hkk', hak']
    · by_cases hak' : a = k'
      · have hkk' : ¬ k = k' := fun hc => hak (hak'.trans hc.symm)
        have hk'k : ¬ k' = k := fun hc => hkk' hc.symm
        simp [alSet, alGet, hak, hak', hkk', hk'k]
      · simp [alSet, alGet, hak, hak', ih]

theorem alGet_append_single {K V : Type} [DecidableEq K] (m : List (K × V))
    (k k' : K) (v : V) :
    alGet (m ++ [(k, v)]) k' =
      match alGet m k' with
      | some w => some w
      | none => if k = k' then some v else none := by
  induction m with
  | nil => simp [alGet]
  | cons e rest ih =>
    obtain ⟨a, b⟩ := e
    by_cases hak' : a = k'
    · simp [alGet, hak']
    · simp [alGet, hak', ih]

theorem alSet_self {K V : Type} [DecidableEq K] (m : List (K × V)) (k : K)
    (v : V) (h : alGet m k = some v) : alSet m k v = m := by
  induction m with
  | nil => simp [alGet] at h
  | cons e rest ih =>
    obtain ⟨a, b⟩ := e
    by_cases hak : a = k
    · simp only [alGet] at h
      rw [if_pos hak] at h
      injection h with hbv
      simp [alSet, hak, hbv]
    · simp only [alGet] at h
      rw [if_neg hak] at h
      simp [alSet, hak, ih h]

theorem ddGet_fst {K V : Type} [DecidableEq K] (m : List (K × V)) (k : K)
    (dflt : V) : (ddGet m k dflt).1 = (alGet m k).getD dflt := by
  unfold ddGet
  cases alGet m k <;> simp

theorem alGet_ddGet_snd {K V : Type} [DecidableEq K] (m : List (K × V))
    (k : K) (dflt : V) (k' : K) :
    (alGet (ddGet m k dflt).2 k').getD dflt = (alGet m k').getD dflt := by
  unfold ddGet
  cases h : alGet m k with
  | some v => simp
  | none =>
    cases h' : alGet m k' with
    | some w => simp [alGet_append_single, h']
    | none =>
      simp only [alGet_append_single, h']
      by_cases hkk' : k = k'
      · simp [hkk']
      · simp [hkk']

/-- The observable content of the start-positions table: the distribution a
lookup would return for a difficulty (`[]` when absent). -/
def startView (sp : List (String × WDist)) (d : String) : WDist :=
  (alGet sp d).getD []

/-- The observable content of the transition table: the distribution a
lookup would return for a difficulty and predecessor hold (`[]` when
absent). -/
def transView (tr : TransTable) (d : String) (h : Hold) : WDist :=
  (alGet ((alGet tr d).getD []) h).getD []

theorem startView_ddGet (sp : List (String × WDist)) (d d' : String) :
    startView (ddGet sp d []).2 d' = startView sp d' :=
  alGet_ddGet_snd sp d [] d'

theorem ddGet_start_fst (sp : List (String × WDist)) (d : String) :
    (ddGet sp d []).1 = startView sp d :=
  ddGet_fst sp d []

theorem ddLookup2_fst (tr : TransTable) (d : String) (h : Hold) :
    (ddLookup2 tr d h).1 = transView tr d h := by
  unfold ddLookup2 transView
  cases h1 : alGet tr d with
  | some inner =>
    simp only [ddGet, h1, Option.getD_some]
    cases h2 : alGet inner h with
    | some dist => simp
    | none => simp
  | none =>
    simp [ddGet, h1, alGet]

theorem transView_ddLookup2 (tr : TransTable) (d : String) (h : Hold)
    (d' : String) (h' : Hold) :
    transView (ddLookup2 tr d h).2 d' h' = transView tr d' h' := by
  unfold ddLookup2 transView
  cases h1 : alGet tr d with
  | some inner =>
    simp only [ddGet, h1]
    cases h2 : alGet inner h with
    | some dist =>
      rw [alSet_self tr d inner h1]
    | none =>
      rw [alGet_alSet]
      by_cases hdd' : d = d'
      · subst hdd'
        rw [if_pos rfl, h1]
        simp only [Option.getD_some]
        cases h3 : alGet inner h' with
        | some w => simp [alGet_append_single, h3]
        | none =>
          simp only [alGet_append_single, h3]
          by_cases hhh' : h = h'
          · simp [hhh']
          · simp [hhh']
      · rw [if_neg hdd']
  | none =>
    simp only [ddGet, h1, alGet]
    rw [alGet_alSet]
    by_cases hdd' : d = d'
    · subst hdd'
      rw [if_pos rfl, h1]
      simp only [Option.getD_some, Option.getD_none, alGet]
      by_cases hhh' : h = h'
      · simp [hhh']
      · simp [hhh']
    · rw [if_neg hdd']
      cases h2 : alGet tr d' with
      | some w => simp [alGet_append_single, h2]
      | none => simp [alGet_append_single, h2, hdd']

/-! ### Sampler lemmas -/

theorem pickFrom_mem (r : ℚ) (c : ℚ) (e : Hold × ℚ) (rest : List (Hold × ℚ)) :
    pickFrom r c e rest ∈ holdsOf (e :: rest) := by
  induction rest generalizing c e with
  | nil => simp [pickFrom, holdsOf]
  | cons e2 rest2 ih =>
    simp only [pickFrom]
    split
    · simp [holdsOf]
    · have h := ih (c + e.2) e2
      simp only [holdsOf, List.map_cons, List.mem_cons] at h ⊢
      tauto

/-- A successful sampling call returns a hold stored in the distribution it
was given, and that hold passed the constraint filter. -/
theorem select_some_spec (dist : WDist) (c : List Hold) (rc : RoleCounts)
    (tape : Tape) (h : Hold) (tape' : Tape)
    (hs : select_from_distribution dist c rc tape = (some h, tape')) :
    h ∈ holdsOf dist ∧
    holdAllowed c rc
      (match c.getLast? with | some x => x.y | none => 0) h = true := by
  unfold select_from_distribution at hs
  split at hs
  · simp at hs
  · dsimp only at hs
    set cy := (match c.getLast? with | some x => x.y | none => 0) with hcy
    rcases hv : dist.filter (fun e => holdAllowed c rc cy e.1) with _ | ⟨v, vs⟩
    · rw [hv] at hs
      simp at hs
    · rw [hv] at hs
      dsimp only at hs
      split at hs
      · simp at hs
      · simp only [Prod.mk.injEq, Option.some.injEq] at hs
        obtain ⟨hh, -⟩ := hs
        have hmem : h ∈ holdsOf (v :: vs) := hh ▸ pickFrom_mem _ _ _ _
        rw [← hv] at hmem
        simp only [holdsOf, List.mem_map] at hmem
        obtain ⟨e, he, hef⟩ := hmem
        have hfe := List.mem_filter.mp he
        refine ⟨?_, ?_⟩
        · exact List.mem_map.mpr ⟨e, hfe.1, hef⟩
        · rw [← hef]
          exact hfe.2

/-! ### Claims C6, C7, C8 -/

/-- Counterexample to C6: a zero-hold route raises (is not silently
accepted), and a training pass aborts at such a record — the following
well-formed record is never processed. -/
theorem claim_C6_counterexample :
    add_climb initState "V0" [] =
      Except.error "IndexError: list index out of range" ∧
    train_on_data initState [⟨some "V0", some []⟩, ⟨some "V0", some [hA]⟩] =
      Except.error "IndexError: list index out of range" := by
  constructor <;> rfl

/-- C6 amended: observing a zero-hold route during training raises an
index error (`moves[0]`), aborting the pass; a corpus entry lacking the
`difficulty` or `climb` field raises a key error that likewise aborts the
remaining entries.  Nothing is skipped and no warning is logged. -/
theorem claim_C6_amended :
    (∀ (st : GenState) (d : String),
      add_climb st d [] = Except.error "IndexError: list index out of range") ∧
    (∀ (st : GenState) (r : ClimbRecord) (rs : List ClimbRecord),
      r.difficulty = none ∨ r.climb = none →
      train_on_data st (r :: rs) = Except.error "KeyError") := by
  constructor
  · intro st d
    rfl
  · intro st r rs hr
    obtain ⟨rdiff, rclimb⟩ := r
    rcases hr with hr | hr
    · simp only at hr
      subst hr
      cases rclimb <;> rfl
    · simp only at hr
      subst hr
      cases rdiff <;> rfl

/-- Witness for the amended C6 at concrete inputs. -/
theorem claim_C6_amended_witness :
    (add_climb stScenario "V9" [] =
      Except.error "IndexError: list index out of range") ∧
    ((⟨none, some [hA]⟩ : ClimbRecord).difficulty = none ∨
      (⟨none, some [hA]⟩ : ClimbRecord).climb = none) ∧
    train_on_data stScenario [⟨none, some [hA]⟩] = Except.error "KeyError" :=
  ⟨claim_C6_amended.1 stScenario "V9", Or.inl rfl,
    claim_C6_amended.2 stScenario ⟨none, some [hA]⟩ [] (Or.inl rfl)⟩

/-- Counterexample to C7: against an empty partial route the sampler
returns a hold with `y = -5 < 0` (the filter admits `y ≥ -8`, not
`y ≥ 0`). -/
theorem claim_C7_counterexample :
    select_from_distribution [(⟨0, -5, 6⟩, 1)] [] rcEmpty [0] =
      (some ⟨0, -5, 6⟩, []) ∧ (⟨0, -5, 6⟩ : Hold).y < 0 := by
  constructor
  · norm_num [select_from_distribution, holdAllowed, is_valid_paired_holds,
      find_paired_hold_distSq, distSq, pickFrom, tapeNext, rcEmpty, distTotal,
      START_ROLE, FINISH_ROLE, FOOTHOLD_ROLE, FOOTHOLD_MAX_Y]
  · decide

/-- C7 amended: with an empty partial route the current height defaults to
0 and the general traverse allowance applies, so the filter admits exactly
the candidates with `y ≥ -8`: no returned hold has `y < -8`, and a
candidate at the boundary `y = -8` can be returned. -/
theorem claim_C7 :
    (∀ (dist : WDist) (rc : RoleCounts) (tape : Tape) (h : Hold)
      (tape' : Tape),
      select_from_distribution dist [] rc tape = (some h, tape') →
        -8 ≤ h.y) ∧
    select_from_distribution [(⟨0, -8, 6⟩, 1)] [] rcEmpty [0] =
      (some ⟨0, -8, 6⟩, []) := by
  constructor
  · intro dist rc tape h tape' hs
    obtain ⟨-, hall⟩ := select_some_spec dist [] rc tape h tape' hs
    by_contra hc
    push_neg at hc
    unfold holdAllowed at hall
    rw [if_pos (by simpa using by omega : h.y <
      (match ([] : List Hold).getLast? with | some x => x.y | none => 0) - 8)] at hall
    simp at hall
  · norm_num [select_from_distribution, holdAllowed, is_valid_paired_holds,
      find_paired_hold_distSq, distSq, pickFrom, tapeNext, rcEmpty, distTotal,
      START_ROLE, FINISH_ROLE, FOOTHOLD_ROLE, FOOTHOLD_MAX_Y]

/-- Witness for the amended C7: the boundary candidate is actually
returned and satisfies the bound. -/
theorem claim_C7_witness : (-8 : Int) ≤ (⟨0, -8, 6⟩ : Hold).y :=
  claim_C7.1 [(⟨0, -8, 6⟩, 1)] rcEmpty [0] ⟨0, -8, 6⟩ [] claim_C7.2

/-- C8: requesting an untrained difficulty raises the configuration error
before any attempt is made; a trained difficulty never raises it. -/
theorem claim_C8 (st : GenState) (d : String) (mn mx ma : Int) (tape : Tape) :
    (d ∉ st.difficulties →
      generate_climb st d mn mx ma tape =
        Except.error ("ValueError: No training data for difficulty " ++ d)) ∧
    (d ∈ st.difficulties →
      ∃ res, generate_climb st d mn mx ma tape = Except.ok res) := by
  unfold generate_climb
  constructor
  · intro h
    rw [if_neg h]
  · intro h
    rw [if_pos h]
    exact ⟨_, rfl⟩

/-- Witness for C8 at a trained and an untrained difficulty. -/
theorem claim_C8_witness :
    ("V1" ∉ stScenario.difficulties ∧
      generate_climb stScenario "V1" 8 20 100 [] =
        Except.error ("ValueError: No training data for difficulty " ++ "V1")) ∧
    ("V0" ∈ stScenario.difficulties ∧
      ∃ res, generate_climb stScenario "V0" 8 20 100 [] = Except.ok res) := by
  have h1 : "V1" ∉ stScenario.difficulties := by decide
  have h2 : "V0" ∈ stScenario.difficulties := by decide
  exact ⟨⟨h1, (claim_C8 stScenario "V1" 8 20 100 []).1 h1⟩,
    ⟨h2, (claim_C8 stScenario "V0" 8 20 100 []).2 h2⟩⟩

/-! ### Role counting -/

/-- Number of holds of a route carrying a given role. -/
def countRole (climb : List Hold) (r : Int) : Nat :=
  (climb.filter (fun h => h.role == r)).length

/-- The tally kept by `generate_climb` agrees with the actual role counts
of the partial route. -/
def agreeCounts (rc : RoleCounts) (climb : List Hold) : Prop :=
  ∀ r, rc r = countRole climb r

theorem countRole_append_single (c : List Hold) (nh : Hold) (r : Int) :
    countRole (c ++ [nh]) r = countRole c r + (if nh.role = r then 1 else 0) := by
  by_cases hr : nh.role = r
  · simp [countRole, List.filter_append, hr]
  · simp [countRole, List.filter_append, hr]

theorem agreeCounts_nil : agreeCounts rcEmpty [] := by
  intro r
  simp [rcEmpty, countRole]

theorem agreeCounts_bump (rc : RoleCounts) (c : List Hold) (nh : Hold)
    (h : agreeCounts rc c) : agreeCounts (rcBump rc nh.role) (c ++ [nh]) := by
  intro r
  rw [countRole_append_single]
  unfold rcBump
  by_cases hr : r = nh.role
  · simp [hr, h r, h nh.role]
  · have hr' : ¬ nh.role = r := fun hc => hr hc.symm
    simp [hr, hr', h r]

/-- The final route validation, phrased over the route itself. -/
def routeValid (min_moves max_moves : Int) (climb : List Hold) : Prop :=
  min_moves ≤ (climb.length : Int) ∧ (climb.length : Int) ≤ max_moves ∧
  1 ≤ countRole climb START_ROLE ∧ countRole climb START_ROLE ≤ 2 ∧
  1 ≤ countRole climb FINISH_ROLE ∧ countRole climb FINISH_ROLE ≤ 2

/-- A hold state known to the trained model for a difficulty: an entry of
its start distribution or of some transition distribution. -/
def inModel (st : GenState) (d : String) (h : Hold) : Prop :=
  h ∈ holdsOf (startView st.start_positions d) ∨
  ∃ p, h ∈ holdsOf (transView st.transitions d p)

/-! ### Move-loop invariants -/

/-- Everything the inner move loop guarantees: the transition table keeps
the same observable content (only empty entries are materialised); the
tally stays in sync with the route; and the loop only appends a chain of
holds each validated against its sampling predecessor and drawn from the
transition distribution of that predecessor. -/
theorem moveLoop_spec (d : String) (mn : Int) (fuel : Nat) (tr : TransTable)
    (cur : Hold) (climb : List Hold) (rc : RoleCounts) (tape : Tape)
    (climb' : List Hold) (rc' : RoleCounts) (tr' : TransTable) (tape' : Tape)
    (heq : moveLoop d mn fuel tr cur climb rc tape = (climb', rc', tr', tape')) :
    (∀ d' h', transView tr' d' h' = transView tr d' h') ∧
    (agreeCounts rc climb → agreeCounts rc' climb') ∧
    (∃ app, climb' = climb ++ app ∧
      List.Chain (fun a b => is_valid_transition a b = true) cur app ∧
      ∀ h ∈ app, ∃ p, h ∈ holdsOf (transView tr d p)) := by
  induction fuel generalizing tr cur climb rc tape climb' rc' tr' tape' with
  | zero =>
    simp only [moveLoop, Prod.mk.injEq] at heq
    obtain ⟨h1, h2, h3, h4⟩ := heq
    subst h1
    subst h2
    subst h3
    subst h4
    exact ⟨fun _ _ => rfl, fun ha => ha, ⟨[], by simp, List.Chain.nil, by simp⟩⟩
  | succ fuel ih =>
    simp only [moveLoop] at heq
    try dsimp only at heq
    rcases hsel : select_from_distribution (ddLookup2 tr d cur).1 climb rc tape
      with ⟨_ | nh, t1⟩
    · rw [hsel] at heq
      try dsimp only at heq
      simp only [Prod.mk.injEq] at heq
      obtain ⟨h1, h2, h3, h4⟩ := heq
      subst h1
      subst h2
      subst h3
      subst h4
      exact ⟨fun d' h' => transView_ddLookup2 tr d cur d' h', fun ha => ha,
        ⟨[], by simp, List.Chain.nil, by simp⟩⟩
    · rw [hsel] at heq
      try dsimp only at heq
      have hmem : nh ∈ holdsOf (transView tr d cur) := by
        have hspec := select_some_spec _ _ _ _ _ _ hsel
        rw [ddLookup2_fst] at hspec
        exact hspec.1
      by_cases hval : is_valid_transition cur nh = false
      · rw [if_pos hval] at heq
        simp only [Prod.mk.injEq] at heq
        obtain ⟨h1, h2, h3, h4⟩ := heq
        subst h1
        subst h2
        subst h3
        subst h4
        exact ⟨fun d' h' => transView_ddLookup2 tr d cur d' h', fun ha => ha,
          ⟨[], by simp, List.Chain.nil, by simp⟩⟩
      · rw [if_neg hval] at heq
        have hvalt : is_valid_transition cur nh = true := by
          cases hbv : is_valid_transition cur nh with
          | false => exact absurd hbv hval
          | true => rfl
        split at heq
        · simp only [Prod.mk.injEq] at heq
          obtain ⟨h1, h2, h3, h4⟩ := heq
          subst h1
          subst h2
          subst h3
          subst h4
          refine ⟨fun d' h' => transView_ddLookup2 tr d cur d' h',
            fun ha => agreeCounts_bump _ _ _ ha, ⟨[nh], rfl, ?_, ?_⟩⟩
          · exact List.Chain.cons hvalt List.Chain.nil
          · intro h hh
            simp only [List.mem_singleton] at hh
            subst hh
            exact ⟨cur, hmem⟩
        · obtain ⟨hv', hc', app, ha1, ha2, ha3⟩ := ih _ _ _ _ _ _ _ _ _ heq
          refine ⟨fun d' h' => (hv' d' h').trans (transView_ddLookup2 tr d cur d' h'),
            fun ha => hc' (agreeCounts_bump _ _ _ ha),
            ⟨nh :: app, by simp [ha1], List.Chain.cons hvalt ha2, ?_⟩⟩
          intro h hh
          rcases List.mem_cons.mp hh with hh | hh
          · subst hh
            exact ⟨cur, hmem⟩
          · obtain ⟨p, hp⟩ := ha3 h hh
            refine ⟨p, ?_⟩
            rw [← transView_ddLookup2 tr d cur d p]
            exact hp

theorem countOk_true_iff (rc : RoleCounts) (climb : List Hold) (mn mx : Int) :
    countOk rc climb mn mx = true ↔
      (mn ≤ (climb.length : Int) ∧ (climb.length : Int) ≤ mx ∧
       1 ≤ rc START_ROLE ∧ rc START_ROLE ≤ 2 ∧
       1 ≤ rc FINISH_ROLE ∧ rc FINISH_ROLE ≤ 2) := by
  unfold countOk
  split
  · rename_i hcond
    simp [hcond]
  · rename_i hcond
    simp [hcond]

theorem routeValid_of_counts (rc : RoleCounts) (climb : List Hold) (mn mx : Int)
    (hagree : agreeCounts rc climb)
    (h : mn ≤ (climb.length : Int) ∧ (climb.length : Int) ≤ mx ∧
      1 ≤ rc START_ROLE ∧ rc START_ROLE ≤ 2 ∧
      1 ≤ rc FINISH_ROLE ∧ rc FINISH_ROLE ≤ 2) :
    routeValid mn mx climb := by
  obtain ⟨c1, c2, c3, c4, c5, c6⟩ := h
  have hs := hagree START_ROLE
  have hf := hagree FINISH_ROLE
  exact ⟨c1, c2, by rw [← hs]; exact c3, by rw [← hs]; exact c4,
    by rw [← hf]; exact c5, by rw [← hf]; exact c6⟩

/-! ### Start-phase invariants -/

/-- Everything the start phase of one attempt guarantees: the model is
observationally unchanged, the tally matches the partial route, the
sampled start hold comes from the start distribution, the partial route is
`[start]` or `[start, s2]` with `s2` drawn from the transition
distribution of `start` — and the returned predecessor (`cur`) is always
the *first* start hold, never the optional second one. -/
theorem startPhase_spec (st : GenState) (d : String) (tape : Tape)
    (o : Option (Hold × List Hold × RoleCounts)) (st1 : GenState) (tape1 : Tape)
    (heq : startPhase st d tape = (o, st1, tape1)) :
    st1.difficulties = st.difficulties ∧
    (∀ d', startView st1.start_positions d' = startView st.start_positions d') ∧
    (∀ d' h', transView st1.transitions d' h' = transView st.transitions d' h') ∧
    (∀ cur climb rc, o = some (cur, climb, rc) →
      agreeCounts rc climb ∧
      cur ∈ holdsOf (startView st.start_positions d) ∧
      (climb = [cur] ∨ ∃ s2, climb = [cur, s2] ∧
        s2 ∈ holdsOf (transView st.transitions d cur))) := by
  unfold startPhase at heq
  try dsimp only at heq
  rcases hsel0 : select_from_distribution (ddGet st.start_positions d []).1 []
      rcEmpty tape with ⟨o0, t1⟩
  rw [hsel0] at heq
  try dsimp only at heq
  cases o0 with
  | none =>
    simp only [Prod.mk.injEq] at heq
    obtain ⟨ho, hst, ht⟩ := heq
    subst ho
    subst hst
    subst ht
    refine ⟨rfl, fun d' => startView_ddGet _ _ _, fun d' h' => rfl, ?_⟩
    intro cur climb rc hcon
    simp at hcon
  | some start =>
    have hstartmem : start ∈ holdsOf (startView st.start_positions d) := by
      have hspec := select_some_spec _ _ _ _ _ _ hsel0
      rw [ddGet_start_fst] at hspec
      exact hspec.1
    have hagree1 : agreeCounts (rcBump rcEmpty start.role) [start] := by
      have h0 := agreeCounts_bump rcEmpty [] start agreeCounts_nil
      simpa using h0
    try dsimp only at heq
    by_cases hcoin : (tapeNext t1).1 < 3/10
    · rw [if_pos hcoin] at heq
      rcases hsel2 : select_from_distribution (ddLookup2 st.transitions d start).1
          [start] (rcBump rcEmpty start.role) (tapeNext t1).2 with ⟨o2, t3⟩
      rw [hsel2] at heq
      try dsimp only at heq
      cases o2 with
      | some s2 =>
        have hs2mem : s2 ∈ holdsOf (transView st.transitions d start) := by
          have hspec := select_some_spec _ _ _ _ _ _ hsel2
          rw [ddLookup2_fst] at hspec
          exact hspec.1
        by_cases hrole : s2.role = START_ROLE
        · simp only [Prod.mk.injEq] at heq
          rw [if_pos hrole] at heq
          simp only [Prod.mk.injEq] at heq
          obtain ⟨ho, hst, ht⟩ := heq
          subst ho
          subst hst
          subst ht
          refine ⟨rfl, fun d' => startView_ddGet _ _ _,
            fun d' h' => transView_ddLookup2 _ _ _ _ _, ?_⟩
          intro cur climb rc hcon
          simp only [Option.some.injEq, Prod.mk.injEq] at hcon
          obtain ⟨hc1, hc2, hc3⟩ := hcon
          subst hc1
          subst hc2
          subst hc3
          refine ⟨?_, hstartmem, Or.inr ⟨s2, by simp, hs2mem⟩⟩
          have h0 := agreeCounts_bump _ _ s2
            (agreeCounts_bump rcEmpty [] start agreeCounts_nil)
          simpa using h0
        · simp only [Prod.mk.injEq] at heq
          rw [if_neg hrole] at heq
          simp only [Prod.mk.injEq] at heq
          obtain ⟨ho, hst, ht⟩ := heq
          subst ho
          subst hst
          subst ht
          refine ⟨rfl, fun d' => startView_ddGet _ _ _,
            fun d' h' => transView_ddLookup2 _ _ _ _ _, ?_⟩
          intro cur climb rc hcon
          simp only [Option.some.injEq, Prod.mk.injEq] at hcon
          obtain ⟨hc1, hc2, hc3⟩ := hcon
          subst hc1
          subst hc2
          subst hc3
          exact ⟨hagree1, hstartmem, Or.inl rfl⟩
      | none =>
        simp only [Prod.mk.injEq] at heq
        obtain ⟨ho, hst, ht⟩ := heq
        subst ho
        subst hst
        subst ht
        refine ⟨rfl, fun d' => startView_ddGet _ _ _,
          fun d' h' => transView_ddLookup2 _ _ _ _ _, ?_⟩
        intro cur climb rc hcon
        simp only [Option.some.injEq, Prod.mk.injEq] at hcon
        obtain ⟨hc1, hc2, hc3⟩ := hcon
        subst hc1
        subst hc2
        subst hc3
        exact ⟨hagree1, hstartmem, Or.inl rfl⟩
    · rw [if_neg hcoin] at heq
      simp only [Prod.mk.injEq] at heq
      obtain ⟨ho, hst, ht⟩ := heq
      subst ho
      subst hst
      subst ht
      refine ⟨rfl, fun d' => startView_ddGet _ _ _, fun d' h' => rfl, ?_⟩
      intro cur climb rc hcon
      simp only [Option.some.injEq, Prod.mk.injEq] at hcon
      obtain ⟨hc1, hc2, hc3⟩ := hcon
      subst hc1
      subst hc2
      subst hc3
      exact ⟨hagree1, hstartmem, Or.inl rfl⟩

/-! ### Attempt-level invariants -/

theorem attempt_spec (st : GenState) (d : String) (mn mx : Int) (tape : Tape)
    (o : Option (List Hold)) (st' : GenState) (tape' : Tape)
    (heq : attempt st d mn mx tape = (o, st', tape')) :
    (st'.difficulties = st.difficulties ∧
     (∀ d', startView st'.start_positions d' = startView st.start_positions d') ∧
     (∀ d' h', transView st'.transitions d' h' = transView st.transitions d' h')) ∧
    (∀ climb, o = some climb →
      routeValid mn mx climb ∧
      (∃ c1 app, List.Chain (fun a b => is_valid_transition a b = true) c1 app ∧
        (climb = c1 :: app ∨ ∃ s2, climb = c1 :: s2 :: app)) ∧
      (∃ c1 rest, climb = c1 :: rest ∧
        c1 ∈ holdsOf (startView st.start_positions d)) ∧
      (∀ h ∈ climb, inModel st d h)) := by
  unfold attempt at heq
  rcases hsp : startPhase st d tape with ⟨o0, st1, t1⟩
  rw [hsp] at heq
  obtain ⟨hdiff, hsv, htv, hsome⟩ := startPhase_spec st d tape o0 st1 t1 hsp
  cases o0 with
  | none =>
    try dsimp only at heq
    simp only [Prod.mk.injEq] at heq
    obtain ⟨ho, hst, ht⟩ := heq
    subst ho
    subst hst
    subst ht
    exact ⟨⟨hdiff, hsv, htv⟩, fun climb hc => by simp at hc⟩
  | some triple =>
    obtain ⟨cur, climb0, rc0⟩ := triple
    try dsimp only at heq
    rcases hml : moveLoop d mn (mx - 1).toNat st1.transitions cur climb0 rc0 t1
      with ⟨climb1, rc1, tr1, t2⟩
    rw [hml] at heq
    try dsimp only at heq
    obtain ⟨hmlv, hmlc, app, hape, hchain, happ⟩ :=
      moveLoop_spec d mn _ _ _ _ _ _ _ _ _ _ hml
    obtain ⟨hagree0, hcurmem, hshape⟩ := hsome cur climb0 rc0 rfl
    by_cases hok : countOk rc1 climb1 mn mx = true
    · rw [if_pos hok] at heq
      simp only [Prod.mk.injEq] at heq
      obtain ⟨ho, hst, ht⟩ := heq
      subst ho
      subst hst
      subst ht
      refine ⟨⟨hdiff, hsv, fun d' h' => (hmlv d' h').trans (htv d' h')⟩, ?_⟩
      intro climb hc
      simp only [Option.some.injEq] at hc
      subst hc
      have hagree1 : agreeCounts rc1 climb1 := hmlc hagree0
      refine ⟨routeValid_of_counts rc1 climb1 mn mx hagree1
        ((countOk_true_iff rc1 climb1 mn mx).mp hok), ?_, ?_, ?_⟩
      · rcases hshape with h1 | ⟨s2, h2, -⟩
        · exact ⟨cur, app, hchain, Or.inl (by rw [hape, h1]; rfl)⟩
        · exact ⟨cur, app, hchain, Or.inr ⟨s2, by rw [hape, h2]; rfl⟩⟩
      · rcases hshape with h1 | ⟨s2, h2, -⟩
        · exact ⟨cur, app, by rw [hape, h1]; rfl, hcurmem⟩
        · exact ⟨cur, s2 :: app, by rw [hape, h2]; rfl, hcurmem⟩
      · intro h hh
        rw [hape] at hh
        rcases List.mem_append.mp hh with hh | hh
        · rcases hshape with h1 | ⟨s2, h2, hs2mem⟩
          · rw [h1] at hh
            simp only [List.mem_singleton] at hh
            subst hh
            exact Or.inl hcurmem
          · rw [h2] at hh
            simp only [List.mem_cons, List.not_mem_nil, or_false] at hh
            rcases hh with hh | hh
            · subst hh
              exact Or.inl hcurmem
            · subst hh
              exact Or.inr ⟨cur, hs2mem⟩
        · obtain ⟨p, hp⟩ := happ h hh
          rw [htv d p] at hp
          exact Or.inr ⟨p, hp⟩
    · rw [if_neg hok] at heq
      simp only [Prod.mk.injEq] at heq
      obtain ⟨ho, hst, ht⟩ := heq
      subst ho
      subst hst
      subst ht
      exact ⟨⟨hdiff, hsv, fun d' h' => (hmlv d' h').trans (htv d' h')⟩,
        fun climb hc => by simp at hc⟩

theorem attemptsLoop_spec (d : String) (mn mx : Int) (n : Nat) (st : GenState)
    (tape : Tape) (o : Option (List Hold)) (st' : GenState) (tape' : Tape)
    (heq : attemptsLoop d mn mx n st tape = (o, st', tape')) :
    (st'.difficulties = st.difficulties ∧
     (∀ d', startView st'.start_positions d' = startView st.start_positions d') ∧
     (∀ d' h', transView st'.transitions d' h' = transView st.transitions d' h')) ∧
    (∀ climb, o = some climb →
      routeValid mn mx climb ∧
      (∃ c1 app, List.Chain (fun a b => is_valid_transition a b = true) c1 app ∧
        (climb = c1 :: app ∨ ∃ s2, climb = c1 :: s2 :: app)) ∧
      (∃ c1 rest, climb = c1 :: rest ∧
        c1 ∈ holdsOf (startView st.start_positions d)) ∧
      (∀ h ∈ climb, inModel st d h)) := by
  induction n generalizing st tape o st' tape' with
  | zero =>
    simp only [attemptsLoop, Prod.mk.injEq] at heq
    obtain ⟨ho, hst, ht⟩ := heq
    subst ho
    subst hst
    subst ht
    exact ⟨⟨rfl, fun _ => rfl, fun _ _ => rfl⟩, fun climb hc => by simp at hc⟩
  | succ n ih =>
    simp only [attemptsLoop] at heq
    rcases hat : attempt st d mn mx tape with ⟨o1, st1, t1⟩
    rw [hat] at heq
    obtain ⟨⟨hd1, hsv1, htv1⟩, hroute1⟩ := attempt_spec st d mn mx tape o1 st1 t1 hat
    cases o1 with
    | some climb =>
      try dsimp only at heq
      simp only [Prod.mk.injEq] at heq
      obtain ⟨ho, hst, ht⟩ := heq
      subst ho
      subst hst
      subst ht
      refine ⟨⟨hd1, hsv1, htv1⟩, ?_⟩
      intro c hc
      simp only [Option.some.injEq] at hc
      subst hc
      exact hroute1 _ rfl
    | none =>
      try dsimp only at heq
      obtain ⟨⟨hd2, hsv2, htv2⟩, hroute2⟩ := ih st1 t1 o st' tape' heq
      refine ⟨⟨hd2.trans hd1, fun d' => (hsv2 d').trans (hsv1 d'),
        fun d' h' => (htv2 d' h').trans (htv1 d' h')⟩, ?_⟩
      intro climb hc
      obtain ⟨hrv, hch, hhead, hmod⟩ := hroute2 climb hc
      refine ⟨hrv, hch, ?_, ?_⟩
      · obtain ⟨c1, rest, hcr, hmem⟩ := hhead
        refine ⟨c1, rest, hcr, ?_⟩
        rw [hsv1 d] at hmem
        exact hmem
      · intro h hh
        have hm := hmod h hh
        unfold inModel at hm ⊢
        rcases hm with hm | ⟨p, hm⟩
        · rw [hsv1 d] at hm
          exact Or.inl hm
        · rw [htv1 d p] at hm
          exact Or.inr ⟨p, hm⟩

/-! ### Claims about generation -/

/-- C1: for a trained difficulty, `generate_climb` never raises; it
returns either `none` (exhaustion) or a route whose length lies in
`[min_moves, max_moves]` with `START` count in `{1, 2}` and `FINISH`
count in `{1, 2}` — never a partial route. -/
theorem claim_C1 (st : GenState) (d : String) (mn mx ma : Int) (tape : Tape)
    (h : d ∈ st.difficulties) :
    ∃ res st' tape',
      generate_climb st d mn mx ma tape = Except.ok (res, st', tape') ∧
      ∀ climb, res = some climb → routeValid mn mx climb := by
  unfold generate_climb
  rw [if_pos h]
  rcases hal : attemptsLoop d mn mx ma.toNat st tape with ⟨o, st2, t2⟩
  refine ⟨o, st2, t2, rfl, ?_⟩
  intro climb hc
  exact ((attemptsLoop_spec d mn mx ma.toNat st tape o st2 t2 hal).2 climb hc).1

/-- Witness for C1 on the concretely trained scenario model. -/
theorem claim_C1_witness :
    "V0" ∈ stScenario.difficulties ∧
    (∃ res st' tape',
      generate_climb stScenario "V0" 1 3 2 [0, 1, 0, 0, 0, 0] =
        Except.ok (res, st', tape') ∧
      ∀ climb, res = some climb → routeValid 1 3 climb) :=
  ⟨by decide, claim_C1 stScenario "V0" 1 3 2 [0, 1, 0, 0, 0, 0] (by decide)⟩

/-- Counterexample to C2: the trained model `stTwo` returns the route
`[hA, hA2, hF]` whose consecutive pair `(hA, hA2)` (first start hold and
accepted second start hold, 4 units apart) violates the pairwise
transition validator — the second start hold is appended without any
`_is_valid_transition` check. -/
theorem claim_C2_counterexample :
    generate_climb stTwo "V0" 3 3 1 [0, 0, 0, 0] =
      Except.ok (some [hA, hA2, hF], stTwo, []) ∧
    is_valid_transition hA hA2 = false := by
  constructor
  · norm_num [stTwo, trainedOn, train_on_data, add_climb, add_to_distribution,
      incFirst, distTotal, ddGet, alGet, alSet, ddLookup2, initState, hA, hA2,
      hF, Except.toOption, Option.getD, generate_climb, attemptsLoop, attempt,
      startPhase, moveLoop, select_from_distribution, holdAllowed,
      is_valid_paired_holds, find_paired_hold_distSq, distSq,
      is_valid_transition, pickFrom, tapeNext, rcEmpty, rcBump, countOk,
      START_ROLE, FINISH_ROLE, FOOTHOLD_ROLE, FOOTHOLD_MAX_Y]
  · decide

/-- C2 amended: in every returned route the holds appended by the move
loop form a chain in which every hold satisfies the pairwise validator
with respect to its sampling predecessor; this covers every consecutive
pair of the route except the pairs adjacent to the optional second start
hold (which is accepted without the validator, and whose successor is
validated against the first start hold instead). -/
theorem claim_C2_amended (st : GenState) (d : String) (mn mx ma : Int)
    (tape : Tape) (h : d ∈ st.difficulties) :
    ∃ res st' tape',
      generate_climb st d mn mx ma tape = Except.ok (res, st', tape') ∧
      ∀ climb, res = some climb →
        ∃ c1 app, List.Chain (fun a b => is_valid_transition a b = true) c1 app ∧
          (climb = c1 :: app ∨ ∃ s2, climb = c1 :: s2 :: app) := by
  unfold generate_climb
  rw [if_pos h]
  rcases hal : attemptsLoop d mn mx ma.toNat st tape with ⟨o, st2, t2⟩
  refine ⟨o, st2, t2, rfl, ?_⟩
  intro climb hc
  exact ((attemptsLoop_spec d mn mx ma.toNat st tape o st2 t2 hal).2 climb hc).2.1

/-- Witness for the amended C2 on the scenario model. -/
theorem claim_C2_amended_witness :
    "V0" ∈ stScenario.difficulties ∧
    (∃ res st' tape',
      generate_climb stScenario "V0" 1 3 2 [0, 1, 0, 0, 0, 0] =
        Except.ok (res, st', tape') ∧
      ∀ climb, res = some climb →
        ∃ c1 app, List.Chain (fun a b => is_valid_transition a b = true) c1 app ∧
          (climb = c1 :: app ∨ ∃ s2, climb = c1 :: s2 :: app)) :=
  ⟨by decide, claim_C2_amended stScenario "V0" 1 3 2 [0, 1, 0, 0, 0, 0] (by decide)⟩

/-- Counterexample to C5: generating on a model whose only route had a
single (terminal) hold materialises an empty transition entry — the
`defaultdict` lookup `self.transitions[difficulty][current]` mutates the
trained generator, so the post-generation state differs from the
pre-generation state. -/
theorem claim_C5_counterexample :
    stLen1.transitions = [] ∧
    generate_climb stLen1 "V0" 1 2 1 [0, 1] =
      Except.ok (none,
        ⟨[("V0", [(hA, [])])], [("V0", [(hA, 1)])], ["V0"]⟩, []) := by
  constructor
  · norm_num [stLen1, trainedOn, train_on_data, add_climb, add_to_distribution,
      incFirst, distTotal, ddGet, alGet, alSet, ddLookup2, initState, hA,
      Except.toOption, Option.getD]
  · norm_num [stLen1, trainedOn, train_on_data, add_climb, add_to_distribution,
      incFirst, distTotal, ddGet, alGet, alSet, ddLookup2, initState, hA,
      Except.toOption, Option.getD, generate_climb, attemptsLoop, attempt,
      startPhase, moveLoop, select_from_distribution, holdAllowed,
      is_valid_paired_holds, find_paired_hold_distSq, distSq,
      is_valid_transition, pickFrom, tapeNext, rcEmpty, rcBump, countOk,
      START_ROLE, FINISH_ROLE, FOOTHOLD_ROLE, FOOTHOLD_MAX_Y]

/-- C5 amended: generation never mutates the difficulties list and leaves
the model observationally unchanged — every start-distribution and
transition-distribution lookup returns the same value before and after a
`generate_climb` call; the only state change is the materialisation of
empty entries by `defaultdict` lookups (visible in the counterexample). -/
theorem claim_C5_amended (st : GenState) (d : String) (mn mx ma : Int)
    (tape : Tape) (res : Option (List Hold)) (st' : GenState) (tape' : Tape)
    (heq : generate_climb st d mn mx ma tape = Except.ok (res, st', tape')) :
    st'.difficulties = st.difficulties ∧
    (∀ d', startView st'.start_positions d' = startView st.start_positions d') ∧
    (∀ d' h', transView st'.transitions d' h' = transView st.transitions d' h') := by
  unfold generate_climb at heq
  by_cases h : d ∈ st.difficulties
  · rw [if_pos h] at heq
    rcases hal : attemptsLoop d mn mx ma.toNat st tape with ⟨o, st2, t2⟩
    rw [hal] at heq
    injection heq with heq
    simp only [Prod.mk.injEq] at heq
    obtain ⟨h1, h2, h3⟩ := heq
    subst h1
    subst h2
    subst h3
    exact (attemptsLoop_spec d mn mx ma.toNat st tape _ _ _ hal).1
  · rw [if_neg h] at heq
    exact absurd heq (by simp)

/-- Witness for the amended C5: the mutated post-state of the
counterexample run is observationally equal to the pre-state. -/
theorem claim_C5_amended_witness :
    (⟨[("V0", [(hA, [])])], [("V0", [(hA, 1)])], ["V0"]⟩ : GenState).difficulties
        = stLen1.difficulties ∧
    (∀ d', startView
        (⟨[("V0", [(hA, [])])], [("V0", [(hA, 1)])], ["V0"]⟩ : GenState).start_positions d'
        = startView stLen1.start_positions d') ∧
    (∀ d' h', transView
        (⟨[("V0", [(hA, [])])], [("V0", [(hA, 1)])], ["V0"]⟩ : GenState).transitions d' h'
        = transView stLen1.transitions d' h') :=
  claim_C5_amended stLen1 "V0" 1 2 1 [0, 1] none
    ⟨[("V0", [(hA, [])])], [("V0", [(hA, 1)])], ["V0"]⟩ []
    (claim_C5_counterexample.2)

/-- C9: whenever the start phase of an attempt succeeds — in particular
when the optional second start hold was appended, so the partial route is
`[cur, s2]` — the predecessor handed to the move loop (used for every
subsequent transition-table lookup and `_is_valid_transition` check until
the next appended hold replaces it) is the *first* start hold, the head of
the route, not the route's actual last hold. -/
theorem claim_C9 (st : GenState) (d : String) (tape : Tape) (cur : Hold)
    (climb : List Hold)
    (heq : (startPhase st d tape).1.map (fun p => (p.1, p.2.1)) =
      some (cur, climb)) :
    climb.head? = some cur ∧ (climb = [cur] ∨ ∃ s2, climb = [cur, s2]) := by
  rcases hsp : startPhase st d tape with ⟨o, st1, t1⟩
  rw [hsp] at heq
  cases o with
  | none => simp at heq
  | some triple =>
    obtain ⟨c0, cl0, rc0⟩ := triple
    simp only [Option.map_some', Option.some.injEq, Prod.mk.injEq] at heq
    obtain ⟨h1, h2⟩ := heq
    subst h1
    subst h2
    obtain ⟨-, -, -, hsome⟩ := startPhase_spec st d tape _ _ _ hsp
    obtain ⟨-, -, hshape⟩ := hsome _ _ _ rfl
    rcases hshape with h | ⟨s2, h, -⟩
    · exact ⟨by rw [h]; rfl, Or.inl h⟩
    · exact ⟨by rw [h]; rfl, Or.inr ⟨s2, h⟩⟩

/-- Witness for C9: on `stTwo` with a tape that takes the 30% branch and
accepts a second start hold, the returned predecessor is the first start
hold `hA` even though the partial route is `[hA, hA2]`. -/
theorem claim_C9_witness :
    ([hA, hA2] : List Hold).head? = some hA ∧
    (([hA, hA2] : List Hold) = [hA] ∨ ∃ s2, ([hA, hA2] : List Hold) = [hA, s2]) :=
  claim_C9 stTwo "V0" [0, 0, 0, 0] hA [hA, hA2]
    (by norm_num [stTwo, trainedOn, train_on_data, add_climb,
      add_to_distribution, incFirst, distTotal, ddGet, alGet, alSet, ddLookup2,
      initState, hA, hA2, hF, Except.toOption, Option.getD, startPhase,
      select_from_distribution, holdAllowed, is_valid_paired_holds,
      find_paired_hold_distSq, distSq, pickFrom, tapeNext, rcEmpty, rcBump,
      START_ROLE, FINISH_ROLE, FOOTHOLD_ROLE, FOOTHOLD_MAX_Y])

/-- C10: every hold of a returned route is a hold state stored in the
trained model for the requested difficulty — the first hold is an entry
of its start distribution and every hold is an entry of the start
distribution or of some transition distribution (the one keyed by the
predecessor used to sample it); the sampler never invents a hold. -/
theorem claim_C10 (st : GenState) (d : String) (mn mx ma : Int) (tape : Tape)
    (h : d ∈ st.difficulties) :
    ∃ res st' tape',
      generate_climb st d mn mx ma tape = Except.ok (res, st', tape') ∧
      ∀ climb, res = some climb →
        (∃ c1 rest, climb = c1 :: rest ∧
          c1 ∈ holdsOf (startView st.start_positions d)) ∧
        ∀ h' ∈ climb, inModel st d h' := by
  unfold generate_climb
  rw [if_pos h]
  rcases hal : attemptsLoop d mn mx ma.toNat st tape with ⟨o, st2, t2⟩
  refine ⟨o, st2, t2, rfl, ?_⟩
  intro climb hc
  have hspec := (attemptsLoop_spec d mn mx ma.toNat st tape o st2 t2 hal).2 climb hc
  exact ⟨hspec.2.2.1, hspec.2.2.2⟩

/-- Witness for C10 on the scenario model. -/
theorem claim_C10_witness :
    "V0" ∈ stScenario.difficulties ∧
    (∃ res st' tape',
      generate_climb stScenario "V0" 1 3 2 [0, 1, 0, 0, 0, 0] =
        Except.ok (res, st', tape') ∧
      ∀ climb, res = some climb →
        (∃ c1 rest, climb = c1 :: rest ∧
          c1 ∈ holdsOf (startView stScenario.start_positions "V0")) ∧
        ∀ h' ∈ climb, inModel stScenario "V0" h') :=
  ⟨by decide, claim_C10 stScenario "V0" 1 3 2 [0, 1, 0, 0, 0, 0] (by decide)⟩
